import Mathlib

/-!
Shallow embedding of the bit-range codec and symbol codec of the `bitfield`
crate (files `src/bitfield/impl/src/lib.rs` and `src/bitfield/src/lib.rs`).

Byte buffers are modelled as `List Nat`; the `u8` well-formedness of a buffer
is the predicate `ValidBuf` (every byte is below 256).  Machine arithmetic on
`u8` values is modelled on `Nat` with explicit `% 256` where the Rust code can
wrap, and the `u8` complement `!x` is modelled as `255 ^^^ x`.

A Rust slice-index panic is modelled by `Option` (for `get`) and by
`Except (List Nat) (List Nat)` (for `set`): `Except.error buf` records that the
write panicked on an out-of-range byte index with the buffer left in state
`buf`, which keeps the partial mutations the loop performed before the panic.
-/

/-- A byte buffer is valid when every entry fits in a `u8`. -/
def ValidBuf (buf : List Nat) : Prop := ∀ byte ∈ buf, byte < 256

instance : DecidablePred ValidBuf := fun buf =>
  List.decidableBAll (fun byte => byte < 256) buf

/-- Bit `i` of the buffer: bit index `i` lives in byte `i / 8` at intra-byte
position `i % 8`, counted from that byte's least-significant bit. -/
def bitAt (buf : List Nat) (i : Nat) : Bool :=
  (buf[i / 8]?.getD 0).testBit (i % 8)

/-- Loop body of the generated `Specifier::get` in
`generate_bit_specifiers` (src/bitfield/impl/src/lib.rs, lines 59-87).
`w` is `Self::BITS`, `bis` is `bit_index_in_storage`, `remaining` is
`Self::BITS - bit_index_in_value`, and `value` is the accumulator; the
source's shift amount `bit_index_in_value` is recovered as `w - remaining`.
Returns `none` when the byte index runs past the buffer (the Rust indexing
panic). -/
def getLoop (w : Nat) (buf : List Nat) (bis remaining value : Nat) : Option Nat :=
  let byteIndex := bis / 8
  let bitOffset := bis % 8
  let bitsInThisByte := min (8 - bitOffset) remaining
  let dataByteMask := (2 ^ bitsInThisByte - 1) % 256
  match buf[byteIndex]? with
  | none => none
  | some dataByte =>
    let bits := (dataByte >>> bitOffset) &&& dataByteMask
    let value2 := value ||| (bits <<< (w - remaining))
    if h : remaining - bitsInThisByte = 0 then some value2
    else getLoop w buf (bis + bitsInThisByte) (remaining - bitsInThisByte) value2
termination_by remaining
decreasing_by
  omega

/-- Loop body of the generated `Specifier::set` in
`generate_bit_specifiers` (src/bitfield/impl/src/lib.rs, lines 89-121).
`remaining` is `Self::BITS - bit_index_in_value`.  `Except.error buf`
models the indexing panic, carrying the buffer state at the panic;
`u8::try_from(value & value_mask)` cannot fail because the mask is below 256,
so it is modelled by the masked value itself. -/
def setLoop (buf : List Nat) (bis remaining value : Nat) :
    Except (List Nat) (List Nat) :=
  let byteIndex := bis / 8
  let bitOffset := bis % 8
  let bitsInThisByte := min (8 - bitOffset) remaining
  let mask := (2 ^ bitsInThisByte - 1) % 256
  let bits := value &&& mask
  match buf[byteIndex]? with
  | none => .error buf
  | some dataByte =>
    let dataByteMask := 255 ^^^ ((mask <<< bitOffset) % 256)
    let newByte := (dataByte &&& dataByteMask) ||| ((bits <<< bitOffset) % 256)
    let buf2 := buf.set byteIndex newByte
    if h : remaining - bitsInThisByte = 0 then .ok buf2
    else setLoop buf2 (bis + bitsInThisByte) (remaining - bitsInThisByte)
      (value >>> bitsInThisByte)
termination_by remaining
decreasing_by
  omega

/-- The generated `Specifier::get` of the width-`w` bit specifier `Bw`:
the loop entered with `bit_index_in_storage = bitIndex`,
`bit_index_in_value = 0` and `value = 0`. -/
def Specifier.get (w : Nat) (buf : List Nat) (bitIndex : Nat) : Option Nat :=
  getLoop w buf bitIndex w 0

/-- The generated `Specifier::set` of the width-`w` bit specifier `Bw`. -/
def Specifier.set (w : Nat) (buf : List Nat) (bitIndex value : Nat) :
    Except (List Nat) (List Nat) :=
  setLoop buf bitIndex w value

/-- Width of the underlying primitive unsigned type chosen by
`get_primitive_type` (src/bitfield/impl/src/lib.rs, lines 787-795). -/
def primBits (bits : Nat) : Nat :=
  if bits ≤ 8 then 8
  else if bits ≤ 16 then 16
  else if bits ≤ 32 then 32
  else if bits ≤ 64 then 64
  else 128

example : Specifier.set 24 [0, 0, 0, 0] 8 0xABCDEF = .ok [0, 0xEF, 0xCD, 0xAB] := by
  rw [Specifier.set]
  rw [setLoop.eq_def]; norm_num
  rw [setLoop.eq_def]; norm_num
  rw [setLoop.eq_def]; norm_num
  decide

example : Specifier.get 24 [0, 0xEF, 0xCD, 0xAB] 8 = some 0xABCDEF := by
  rw [Specifier.get]
  rw [getLoop.eq_def]; norm_num
  rw [getLoop.eq_def]; norm_num
  rw [getLoop.eq_def]; norm_num
  decide

example : Specifier.set 16 [0] 0 65535 = .error [255] := by
  rw [Specifier.set]
  rw [setLoop.eq_def]; norm_num
  rw [setLoop.eq_def]; norm_num
  decide

/-- One unfolding of `getLoop` when the byte index is in range. -/
lemma getLoop_step (w : Nat) (buf : List Nat) (bis remaining value db : Nat)
    (hdb : buf[bis / 8]? = some db) :
    getLoop w buf bis remaining value =
      (if remaining - min (8 - bis % 8) remaining = 0
       then some (value |||
         (((db >>> (bis % 8)) &&& ((2 ^ min (8 - bis % 8) remaining - 1) % 256))
           <<< (w - remaining)))
       else getLoop w buf (bis + min (8 - bis % 8) remaining)
              (remaining - min (8 - bis % 8) remaining)
              (value |||
                (((db >>> (bis % 8)) &&&
                  ((2 ^ min (8 - bis % 8) remaining - 1) % 256))
                  <<< (w - remaining)))) := by
  conv_lhs => rw [getLoop.eq_def]
  simp only [hdb, dite_eq_ite]

/-- One unfolding of `getLoop` when the byte index is out of range. -/
lemma getLoop_none (w : Nat) (buf : List Nat) (bis remaining value : Nat)
    (hdb : buf[bis / 8]? = none) :
    getLoop w buf bis remaining value = none := by
  conv_lhs => rw [getLoop.eq_def]
  simp only [hdb]

/-- One unfolding of `setLoop` when the byte index is in range. -/
lemma setLoop_step (buf : List Nat) (bis remaining value db : Nat)
    (hdb : buf[bis / 8]? = some db) :
    setLoop buf bis remaining value =
      (if remaining - min (8 - bis % 8) remaining = 0
       then .ok (buf.set (bis / 8)
         ((db &&& (255 ^^^ ((((2 ^ min (8 - bis % 8) remaining - 1) % 256) <<< (bis % 8)) % 256))) |||
          (((value &&& ((2 ^ min (8 - bis % 8) remaining - 1) % 256)) <<< (bis % 8)) % 256)))
       else setLoop
         (buf.set (bis / 8)
           ((db &&& (255 ^^^ ((((2 ^ min (8 - bis % 8) remaining - 1) % 256) <<< (bis % 8)) % 256))) |||
            (((value &&& ((2 ^ min (8 - bis % 8) remaining - 1) % 256)) <<< (bis % 8)) % 256)))
         (bis + min (8 - bis % 8) remaining)
         (remaining - min (8 - bis % 8) remaining)
         (value >>> min (8 - bis % 8) remaining)) := by
  conv_lhs => rw [setLoop.eq_def]
  simp only [hdb, dite_eq_ite]

/-- One unfolding of `setLoop` when the byte index is out of range: the write
panics with the buffer in its current (possibly already mutated) state. -/
lemma setLoop_none (buf : List Nat) (bis remaining value : Nat)
    (hdb : buf[bis / 8]? = none) :
    setLoop buf bis remaining value = .error buf := by
  conv_lhs => rw [setLoop.eq_def]
  simp only [hdb]

/-- Characterization of the read loop: entered in bounds, it succeeds and the
result accumulates, above the already-filled low `w - remaining` bits, exactly
the buffer bits `[bis, bis + remaining)`. -/
lemma getLoop_spec (w : Nat) (buf : List Nat) :
    ∀ remaining bis value, 1 ≤ remaining → remaining ≤ w →
      bis + remaining ≤ 8 * buf.length →
      ∃ out, getLoop w buf bis remaining value = some out ∧
        ∀ t, out.testBit t =
          (value.testBit t ||
            (decide (w - remaining ≤ t ∧ t < w) &&
              bitAt buf (bis + (t - (w - remaining))))) := by
  intro remaining
  induction remaining using Nat.strong_induction_on with
  | _ remaining IH =>
    intro bis value h1 h2 h3
    have hlt : bis / 8 < buf.length := by omega
    obtain ⟨db, hdb⟩ : ∃ db, buf[bis / 8]? = some db :=
      ⟨_, List.getElem?_eq_getElem hlt⟩
    have hoff : bis % 8 < 8 := Nat.mod_lt _ (by norm_num)
    have hb1 : 1 ≤ min (8 - bis % 8) remaining := by omega
    have hb8 : min (8 - bis % 8) remaining ≤ 8 := by omega
    have hmask : (2 ^ min (8 - bis % 8) remaining - 1) % 256
        = 2 ^ min (8 - bis % 8) remaining - 1 := by
      have hple : (2 : Nat) ^ min (8 - bis % 8) remaining ≤ 2 ^ 8 :=
        Nat.pow_le_pow_right (by norm_num) hb8
      omega
    rw [getLoop_step w buf bis remaining value _ hdb, hmask]
    by_cases hbrk : remaining - min (8 - bis % 8) remaining = 0
    · rw [if_pos hbrk]
      refine ⟨_, rfl, fun t => ?_⟩
      have hbr : min (8 - bis % 8) remaining = remaining := by omega
      rcases Nat.lt_or_ge t (w - remaining) with h4 | h4
      · have h5 : ¬ (w - remaining ≤ t) := by omega
        simp [Nat.testBit_or, Nat.testBit_shiftLeft, ge_iff_le, h5]
      · by_cases h6 : t - (w - remaining) < min (8 - bis % 8) remaining
        · have e1 : (bis + (t - (w - remaining))) / 8 = bis / 8 := by omega
          have e2 : (bis + (t - (w - remaining))) % 8
              = bis % 8 + (t - (w - remaining)) := by omega
          have h7 : t < w := by omega
          simp [Nat.testBit_or, Nat.testBit_shiftLeft, Nat.testBit_and,
            Nat.testBit_shiftRight, Nat.testBit_two_pow_sub_one,
            ge_iff_le, h4, h6, h7, bitAt, e1, e2, hdb]
        · have h7 : ¬ (t < w) := by omega
          simp [Nat.testBit_or, Nat.testBit_shiftLeft, Nat.testBit_and,
            Nat.testBit_shiftRight, Nat.testBit_two_pow_sub_one,
            ge_iff_le, h4, h6, h7]
    · rw [if_neg hbrk]
      obtain ⟨out, hout, hchar⟩ :=
        IH (remaining - min (8 - bis % 8) remaining) (by omega)
          (bis + min (8 - bis % 8) remaining) _ (by omega) (by omega) (by omega)
      refine ⟨out, hout, fun t => ?_⟩
      rw [hchar t]
      have hbne : min (8 - bis % 8) remaining = 8 - bis % 8 := by omega
      rcases Nat.lt_or_ge t (w - remaining) with h4 | h4
      · have h5 : ¬ (w - remaining ≤ t) := by omega
        have h6 : ¬ (w - (remaining - min (8 - bis % 8) remaining) ≤ t) := by
          omega
        simp [Nat.testBit_or, Nat.testBit_shiftLeft, ge_iff_le, h5, h6]
      · by_cases h6 : t - (w - remaining) < min (8 - bis % 8) remaining
        · have e1 : (bis + (t - (w - remaining))) / 8 = bis / 8 := by omega
          have e2 : (bis + (t - (w - remaining))) % 8
              = bis % 8 + (t - (w - remaining)) := by omega
          have h7 : t < w := by omega
          have h8 : ¬ (w - (remaining - min (8 - bis % 8) remaining) ≤ t) := by
            omega
          simp [Nat.testBit_or, Nat.testBit_shiftLeft, Nat.testBit_and,
            Nat.testBit_shiftRight, Nat.testBit_two_pow_sub_one,
            ge_iff_le, h4, h6, h7, h8, bitAt, e1, e2, hdb]
        · by_cases h7 : t < w
          · have h8 : w - (remaining - min (8 - bis % 8) remaining) ≤ t := by
              omega
            have e3 : bis + min (8 - bis % 8) remaining +
                (t - (w - (remaining - min (8 - bis % 8) remaining)))
                = bis + (t - (w - remaining)) := by omega
            simp [Nat.testBit_or, Nat.testBit_shiftLeft, Nat.testBit_and,
              Nat.testBit_shiftRight, Nat.testBit_two_pow_sub_one,
              ge_iff_le, h4, h6, h7, h8, e3]
          · have h8 : ¬ (w - (remaining - min (8 - bis % 8) remaining) ≤ t ∧
                t < w) := by omega
            simp [Nat.testBit_or, Nat.testBit_shiftLeft, Nat.testBit_and,
              Nat.testBit_shiftRight, Nat.testBit_two_pow_sub_one,
              ge_iff_le, h4, h6, h7, h8]

/-- Bit-level characterization of the byte produced by one write-loop
iteration: bits `[off, off + b)` come from the low bits of `value`, the other
bits of the byte are kept, and bits at positions 8 and above are cleared. -/
lemma newByte_testBit (db value b off : Nat) (hoff : off < 8) (hb : b ≤ 8 - off) :
    ∀ j, ((db &&& (255 ^^^ (((2 ^ b - 1) <<< off) % 256))) |||
          (((value &&& (2 ^ b - 1)) <<< off) % 256)).testBit j =
      (if off ≤ j ∧ j < off + b then value.testBit (j - off)
       else if j < 8 then db.testBit j else false) := by
  intro j
  rw [(by norm_num : (256 : Nat) = 2 ^ 8), (by norm_num : (255 : Nat) = 2 ^ 8 - 1)]
  simp only [Nat.testBit_or, Nat.testBit_and, Nat.testBit_xor,
    Nat.testBit_mod_two_pow, Nat.testBit_shiftLeft,
    Nat.testBit_two_pow_sub_one, ge_iff_le]
  by_cases h1 : j < 8
  · by_cases h2 : off ≤ j
    · by_cases h3 : j - off < b
      · have h4 : off ≤ j ∧ j < off + b := by omega
        simp [h1, h2, h3, h4]
      · have h4 : ¬(off ≤ j ∧ j < off + b) := by omega
        have h5 : ¬(j < off + b) := by omega
        simp [h1, h2, h3, h4, h5]
    · have h4 : ¬(off ≤ j ∧ j < off + b) := by omega
      simp [h1, h2, h4]
  · have h4 : ¬(off ≤ j ∧ j < off + b) := by omega
    simp [h1, h4]

/-- The byte produced by one write-loop iteration fits in a `u8`. -/
lemma newByte_lt (db value b off : Nat) (hoff : off < 8) (hb : b ≤ 8 - off) :
    ((db &&& (255 ^^^ (((2 ^ b - 1) <<< off) % 256))) |||
      (((value &&& (2 ^ b - 1)) <<< off) % 256)) < 256 := by
  have h : ((db &&& (255 ^^^ (((2 ^ b - 1) <<< off) % 256))) |||
      (((value &&& (2 ^ b - 1)) <<< off) % 256)) < 2 ^ 8 := by
    refine Nat.lt_pow_two_of_testBit _ fun i hi => ?_
    rw [newByte_testBit db value b off hoff hb i]
    have h1 : ¬(off ≤ i ∧ i < off + b) := by omega
    have h2 : ¬(i < 8) := by omega
    simp [h1, h2]
  omega

/-- Effect, on the bit view of the buffer, of one write-loop iteration: bits
`[bis, bis + b)` receive the low `b` bits of `value`; all other bits of the
buffer are unchanged (the written range stays inside byte `bis / 8`). -/
lemma set_byte_bitAt (buf : List Nat) (bis b value db : Nat)
    (hlt : bis / 8 < buf.length) (hdb : buf[bis / 8]? = some db)
    (hb : b ≤ 8 - bis % 8) :
    ∀ i, bitAt (buf.set (bis / 8)
        ((db &&& (255 ^^^ (((2 ^ b - 1) <<< (bis % 8)) % 256))) |||
          (((value &&& (2 ^ b - 1)) <<< (bis % 8)) % 256))) i =
      (if bis ≤ i ∧ i < bis + b then value.testBit (i - bis) else bitAt buf i) := by
  intro i
  have hoff : bis % 8 < 8 := Nat.mod_lt _ (by norm_num)
  by_cases hhit : i / 8 = bis / 8
  · rw [bitAt, hhit, List.getElem?_set_self hlt, Option.getD_some,
      newByte_testBit db value b (bis % 8) hoff hb (i % 8)]
    by_cases hin : bis ≤ i ∧ i < bis + b
    · have h4 : bis % 8 ≤ i % 8 ∧ i % 8 < bis % 8 + b := by omega
      have e1 : i % 8 - bis % 8 = i - bis := by omega
      rw [if_pos h4, if_pos hin, e1]
    · have h4 : ¬(bis % 8 ≤ i % 8 ∧ i % 8 < bis % 8 + b) := by omega
      have h5 : i % 8 < 8 := Nat.mod_lt _ (by norm_num)
      rw [if_neg h4, if_pos h5, if_neg hin, bitAt, hhit, hdb, Option.getD_some]
  · have h4 : ¬(bis ≤ i ∧ i < bis + b) := by omega
    rw [if_neg h4, bitAt, bitAt, List.getElem?_set_ne (Ne.symm hhit)]

/-- Characterization of the write loop: entered in bounds on a valid buffer,
it succeeds, preserves the length and validity of the buffer, writes the low
`remaining` bits of `value` to the bit range `[bis, bis + remaining)`, and
leaves every other bit of the buffer unchanged. -/
lemma setLoop_spec :
    ∀ remaining bis value (buf : List Nat), 1 ≤ remaining →
      bis + remaining ≤ 8 * buf.length → ValidBuf buf →
      ∃ buf2, setLoop buf bis remaining value = .ok buf2 ∧
        buf2.length = buf.length ∧ ValidBuf buf2 ∧
        ∀ i, bitAt buf2 i =
          (if bis ≤ i ∧ i < bis + remaining then value.testBit (i - bis)
           else bitAt buf i) := by
  intro remaining
  induction remaining using Nat.strong_induction_on with
  | _ remaining IH =>
    intro bis value buf h1 h3 hv
    have hlt : bis / 8 < buf.length := by omega
    obtain ⟨db, hdb⟩ : ∃ db, buf[bis / 8]? = some db :=
      ⟨_, List.getElem?_eq_getElem hlt⟩
    have hoff : bis % 8 < 8 := Nat.mod_lt _ (by norm_num)
    have hb1 : 1 ≤ min (8 - bis % 8) remaining := by omega
    have hble : min (8 - bis % 8) remaining ≤ 8 - bis % 8 := by omega
    have hmask : (2 ^ min (8 - bis % 8) remaining - 1) % 256
        = 2 ^ min (8 - bis % 8) remaining - 1 := by
      have hple : (2 : Nat) ^ min (8 - bis % 8) remaining ≤ 2 ^ 8 :=
        Nat.pow_le_pow_right (by norm_num) (by omega)
      omega
    have hlen1 := List.length_set buf (bis / 8)
      ((db &&&
        (255 ^^^ (((2 ^ min (8 - bis % 8) remaining - 1) <<< (bis % 8)) % 256))) |||
        (((value &&& (2 ^ min (8 - bis % 8) remaining - 1)) <<< (bis % 8)) % 256))
    have hv1 : ValidBuf (buf.set (bis / 8)
        ((db &&&
          (255 ^^^ (((2 ^ min (8 - bis % 8) remaining - 1) <<< (bis % 8)) % 256))) |||
          (((value &&& (2 ^ min (8 - bis % 8) remaining - 1)) <<< (bis % 8)) % 256))) := by
      intro byte hmem
      rcases List.mem_or_eq_of_mem_set hmem with hm | hm
      · exact hv _ hm
      · rw [hm]
        exact newByte_lt _ _ _ _ hoff hble
    have hchar1 := set_byte_bitAt buf bis (min (8 - bis % 8) remaining) value
      db hlt hdb hble
    rw [setLoop_step buf bis remaining value _ hdb, hmask]
    by_cases hbrk : remaining - min (8 - bis % 8) remaining = 0
    · rw [if_pos hbrk]
      refine ⟨_, rfl, hlen1, hv1, fun i => ?_⟩
      rw [hchar1 i]
      have hbr : min (8 - bis % 8) remaining = remaining := by omega
      rw [hbr]
    · rw [if_neg hbrk]
      obtain ⟨buf2, hok, hlen2, hv2, hchar2⟩ :=
        IH (remaining - min (8 - bis % 8) remaining) (by omega)
          (bis + min (8 - bis % 8) remaining)
          (value >>> min (8 - bis % 8) remaining) _
          (by omega) (by rw [hlen1]; omega) hv1
      refine ⟨buf2, hok, by rw [hlen2, hlen1], hv2, fun i => ?_⟩
      rw [hchar2 i]
      by_cases h4 : bis + min (8 - bis % 8) remaining ≤ i ∧
          i < bis + min (8 - bis % 8) remaining +
            (remaining - min (8 - bis % 8) remaining)
      · rw [if_pos h4, Nat.testBit_shiftRight]
        have h5 : bis ≤ i ∧ i < bis + remaining := by omega
        rw [if_pos h5]
        congr 1
        omega
      · rw [if_neg h4, hchar1 i]
        by_cases h5 : bis ≤ i ∧ i < bis + min (8 - bis % 8) remaining
        · have h6 : bis ≤ i ∧ i < bis + remaining := by omega
          rw [if_pos h5, if_pos h6]
        · have h6 : ¬(bis ≤ i ∧ i < bis + remaining) := by omega
          rw [if_neg h5, if_neg h6]

/-- Specification of the generated `Specifier::get`: an in-bounds read
succeeds and bit `t` of the result is buffer bit `bitIndex + t` for `t < w`,
and zero above. -/
lemma get_spec (w : Nat) (buf : List Nat) (bitIndex : Nat) (h1 : 1 ≤ w)
    (h3 : bitIndex + w ≤ 8 * buf.length) :
    ∃ out, Specifier.get w buf bitIndex = some out ∧
      ∀ t, out.testBit t = (decide (t < w) && bitAt buf (bitIndex + t)) := by
  obtain ⟨out, hout, hchar⟩ := getLoop_spec w buf w bitIndex 0 h1 le_rfl h3
  refine ⟨out, hout, fun t => ?_⟩
  rw [hchar t]
  simp [Nat.zero_testBit]

/-- Specification of the generated `Specifier::set`: an in-bounds write on a
valid buffer succeeds; the result keeps the length and validity of the buffer,
holds the low `w` bits of `value` in the bit range
`[bitIndex, bitIndex + w)`, and agrees with the original buffer on every
other bit. -/
lemma set_spec (w : Nat) (buf : List Nat) (bitIndex value : Nat) (h1 : 1 ≤ w)
    (h3 : bitIndex + w ≤ 8 * buf.length) (hv : ValidBuf buf) :
    ∃ buf2, Specifier.set w buf bitIndex value = .ok buf2 ∧
      buf2.length = buf.length ∧ ValidBuf buf2 ∧
      ∀ i, bitAt buf2 i =
        (if bitIndex ≤ i ∧ i < bitIndex + w then value.testBit (i - bitIndex)
         else bitAt buf i) :=
  setLoop_spec w bitIndex value buf h1 h3 hv

/-- An out-of-bounds read reaches a byte index past the buffer end and fails
with the indexing panic. -/
lemma getLoop_oob (w : Nat) (buf : List Nat) :
    ∀ remaining bis value, 1 ≤ remaining →
      8 * buf.length < bis + remaining →
      getLoop w buf bis remaining value = none := by
  intro remaining
  induction remaining using Nat.strong_induction_on with
  | _ remaining IH =>
    intro bis value h1 h3
    by_cases hlt : bis / 8 < buf.length
    · obtain ⟨db, hdb⟩ : ∃ db, buf[bis / 8]? = some db :=
        ⟨_, List.getElem?_eq_getElem hlt⟩
      rw [getLoop_step w buf bis remaining value _ hdb]
      have hbrk : ¬(remaining - min (8 - bis % 8) remaining = 0) := by omega
      rw [if_neg hbrk]
      exact IH _ (by omega) _ _ (by omega) (by omega)
    · exact getLoop_none w buf bis remaining value
        (List.getElem?_eq_none (by omega))

/-- An out-of-bounds write reaches a byte index past the buffer end and fails
with the indexing panic (after possibly mutating in-range bytes). -/
lemma setLoop_oob :
    ∀ remaining bis value (buf : List Nat), 1 ≤ remaining →
      8 * buf.length < bis + remaining →
      ∃ e, setLoop buf bis remaining value = .error e := by
  intro remaining
  induction remaining using Nat.strong_induction_on with
  | _ remaining IH =>
    intro bis value buf h1 h3
    by_cases hlt : bis / 8 < buf.length
    · obtain ⟨db, hdb⟩ : ∃ db, buf[bis / 8]? = some db :=
        ⟨_, List.getElem?_eq_getElem hlt⟩
      rw [setLoop_step buf bis remaining value _ hdb]
      have hbrk : ¬(remaining - min (8 - bis % 8) remaining = 0) := by omega
      rw [if_neg hbrk]
      exact IH _ (by omega) _ _ _ (by omega) (by simp; omega)
    · exact ⟨buf, setLoop_none buf bis remaining value
        (List.getElem?_eq_none (by omega))⟩

/-- Two valid buffers of equal length with the same bit view are equal. -/
lemma eq_of_bitAt_eq (buf1 buf2 : List Nat) (hl : buf1.length = buf2.length)
    (hv1 : ValidBuf buf1) (hv2 : ValidBuf buf2)
    (hb : ∀ i, bitAt buf1 i = bitAt buf2 i) : buf1 = buf2 := by
  refine List.ext_getElem hl fun n hn1 hn2 => ?_
  refine Nat.eq_of_testBit_eq fun t => ?_
  by_cases ht : t < 8
  · have h1 := hb (8 * n + t)
    rw [bitAt, bitAt] at h1
    have e1 : (8 * n + t) / 8 = n := by omega
    have e2 : (8 * n + t) % 8 = t := by omega
    rw [e1, e2, List.getElem?_eq_getElem hn1, List.getElem?_eq_getElem hn2] at h1
    simpa using h1
  · have l1 : buf1[n] < 256 := hv1 _ (List.getElem_mem hn1)
    have l2 : buf2[n] < 256 := hv2 _ (List.getElem_mem hn2)
    rw [Nat.testBit_eq_false_of_lt (by calc buf1[n] < 256 := l1
          _ ≤ 2 ^ t := by
            calc (256 : Nat) = 2 ^ 8 := by norm_num
            _ ≤ 2 ^ t := Nat.pow_le_pow_right (by norm_num) (by omega)),
        Nat.testBit_eq_false_of_lt (by calc buf2[n] < 256 := l2
          _ ≤ 2 ^ t := by
            calc (256 : Nat) = 2 ^ 8 := by norm_num
            _ ≤ 2 ^ t := Nat.pow_le_pow_right (by norm_num) (by omega))]

/-- The match body generated by `parse_enum` for an exhaustive enum
(src/bitfield/impl/src/lib.rs, lines 598-653): the arms
`v if v == disc_i => Variant_i` are tried in declaration order and the final
arm is `core::unreachable!`.  A variant is modelled by its position in the
declaration; `none` models reaching the `unreachable!` arm. -/
def decodeExhaustive (discs : List Nat) (raw : Nat) : Option Nat :=
  match discs with
  | [] => none
  | d :: rest =>
    if raw = d then some 0 else (decodeExhaustive rest raw).map (· + 1)

/-- The match body generated by `parse_enum` for an open (`set_bits`) enum
(src/bitfield/impl/src/lib.rs, lines 560-596): the arms
`v if v == disc_i => Ok(Variant_i)` are tried in declaration order and the
final arm is `v => Err(Unrecognized::new(v))`. -/
def decodeOpen (discs : List Nat) (raw : Nat) : Except Nat Nat :=
  match discs with
  | [] => .error raw
  | d :: rest =>
    if raw = d then .ok 0
    else
      match decodeOpen rest raw with
      | .ok i => .ok (i + 1)
      | .error e => .error e

/-- The generated `Specifier::get` of an open (`set_bits`) enum
(`implement_specifier`, src/bitfield/impl/src/lib.rs, lines 501-507): read
the underlying bit specifier, then run the open match body. -/
def getSymbolOpen (w : Nat) (discs : List Nat) (buf : List Nat) (o : Nat) :
    Option (Except Nat Nat) :=
  (Specifier.get w buf o).map (decodeOpen discs)

/-- The `impl Specifier for bool` read (src/bitfield/src/lib.rs,
lines 357-365). -/
def boolGet (buf : List Nat) (bitIndex : Nat) : Option Bool :=
  match buf[bitIndex / 8]? with
  | none => none
  | some dataByte => some (((dataByte >>> (bitIndex % 8)) &&& 1) != 0)

/-- The `impl Specifier for bool` write (src/bitfield/src/lib.rs,
lines 367-375). -/
def boolSet (buf : List Nat) (bitIndex : Nat) (value : Bool) :
    Except (List Nat) (List Nat) :=
  match buf[bitIndex / 8]? with
  | none => .error buf
  | some dataByte =>
    .ok (buf.set (bitIndex / 8)
      ((dataByte &&& (255 ^^^ (1 <<< (bitIndex % 8)))) |||
        ((if value then 1 else 0) <<< (bitIndex % 8))))

/-- Field bit offsets as accumulated by `get_intermediate_token_streams`
(src/bitfield/impl/src/lib.rs, lines 295-355): the `bit_index` token stream
starts at 0 and, after each field, is extended by `+ BITS` of that field, so
field `k` is accessed at the sum of the widths of fields `0..k`. -/
def fieldOffset (widths : List Nat) (k : Nat) : Nat :=
  (widths.take k).sum

/-- The generated getter of field `k` of a bitfield struct with the given
field widths. -/
def getField (widths : List Nat) (buf : List Nat) (k : Nat) : Option Nat :=
  Specifier.get (widths.getD k 0) buf (fieldOffset widths k)

/-- The generated setter of field `k` of a bitfield struct with the given
field widths. -/
def setField (widths : List Nat) (buf : List Nat) (k v : Nat) :
    Except (List Nat) (List Nat) :=
  Specifier.set (widths.getD k 0) buf (fieldOffset widths k) v

lemma decodeExhaustive_isSome_of_mem (discs : List Nat) (raw : Nat)
    (h : raw ∈ discs) : (decodeExhaustive discs raw).isSome := by
  induction discs with
  | nil => cases h
  | cons d rest ih =>
    rw [decodeExhaustive]
    by_cases hd : raw = d
    · simp [hd]
    · have : raw ∈ rest := by
        rcases List.mem_cons.mp h with h1 | h1
        · exact absurd h1 hd
        · exact h1
      rw [if_neg hd]
      simpa using ih this

lemma mem_of_nodup_full (discs : List Nat) (w raw : Nat) (hn : discs.Nodup)
    (hlen : discs.length = 2 ^ w) (hlt : ∀ d ∈ discs, d < 2 ^ w)
    (hraw : raw < 2 ^ w) : raw ∈ discs := by
  have hsub : discs.toFinset ⊆ Finset.range (2 ^ w) := by
    intro x hx
    exact Finset.mem_range.mpr (hlt x (List.mem_toFinset.mp hx))
  have hcard : (Finset.range (2 ^ w)).card ≤ discs.toFinset.card := by
    rw [Finset.card_range, List.toFinset_card_of_nodup hn, hlen]
  have heq : discs.toFinset = Finset.range (2 ^ w) :=
    Finset.eq_of_subset_of_card_le hsub hcard
  exact List.mem_toFinset.mp (heq ▸ Finset.mem_range.mpr hraw)

lemma decodeOpen_of_mem (discs : List Nat) (raw : Nat) (h : raw ∈ discs) :
    ∃ i, decodeOpen discs raw = .ok i ∧ discs.getD i 0 = raw := by
  induction discs with
  | nil => cases h
  | cons d rest ih =>
    rw [decodeOpen]
    by_cases hd : raw = d
    · exact ⟨0, by rw [if_pos hd], by simp [hd]⟩
    · have hmem : raw ∈ rest := by
        rcases List.mem_cons.mp h with h1 | h1
        · exact absurd h1 hd
        · exact h1
      obtain ⟨i, hok, hget⟩ := ih hmem
      exact ⟨i + 1, by rw [if_neg hd, hok], by simpa using hget⟩

lemma decodeOpen_of_not_mem (discs : List Nat) (raw : Nat) (h : raw ∉ discs) :
    decodeOpen discs raw = .error raw := by
  induction discs with
  | nil => rw [decodeOpen]
  | cons d rest ih =>
    rw [decodeOpen]
    have hd : ¬(raw = d) := fun hh => h (hh ▸ List.mem_cons_self d rest)
    rw [if_neg hd, ih (fun hh => h (List.mem_cons_of_mem d hh))]

lemma decodeOpen_ok_mem (discs : List Nat) (raw i : Nat)
    (h : decodeOpen discs raw = .ok i) : raw ∈ discs ∧ discs.getD i 0 = raw := by
  induction discs generalizing i with
  | nil => rw [decodeOpen] at h; cases h
  | cons d rest ih =>
    rw [decodeOpen] at h
    by_cases hd : raw = d
    · rw [if_pos hd] at h
      cases h
      exact ⟨hd ▸ List.mem_cons_self d rest, by simp [hd]⟩
    · rw [if_neg hd] at h
      cases hrec : decodeOpen rest raw with
      | error e => rw [hrec] at h; cases h
      | ok j =>
        rw [hrec] at h
        cases h
        obtain ⟨hmem, hget⟩ := ih j hrec
        exact ⟨List.mem_cons_of_mem d hmem, by simpa using hget⟩

/-- Frame property of the `bool` specifier write: an in-bounds single-bit
write on a valid buffer succeeds, stores the Boolean at bit `bitIndex`, and
leaves every other bit unchanged. -/
lemma boolSet_spec (buf : List Nat) (bitIndex : Nat) (value : Bool)
    (h3 : bitIndex < 8 * buf.length) :
    ∃ buf2, boolSet buf bitIndex value = .ok buf2 ∧
      buf2.length = buf.length ∧
      bitAt buf2 bitIndex = value ∧
      ∀ i, i ≠ bitIndex → bitAt buf2 i = bitAt buf i := by
  have hlt : bitIndex / 8 < buf.length := by omega
  obtain ⟨db, hdb⟩ : ∃ db, buf[bitIndex / 8]? = some db :=
    ⟨_, List.getElem?_eq_getElem hlt⟩
  have hoff : bitIndex % 8 < 8 := Nat.mod_lt _ (by norm_num)
  have hlt1 : (1 : Nat) <<< (bitIndex % 8) < 256 := by
    rw [Nat.shiftLeft_eq, one_mul]
    calc (2 : Nat) ^ (bitIndex % 8) ≤ 2 ^ 7 :=
          Nat.pow_le_pow_right (by norm_num) (by omega)
      _ < 256 := by norm_num
  have e1 : (1 : Nat) <<< (bitIndex % 8) =
      ((2 ^ 1 - 1) <<< (bitIndex % 8)) % 256 := by
    rw [(by norm_num : (2 : Nat) ^ 1 - 1 = 1), Nat.mod_eq_of_lt hlt1]
  have hv1 : (if value then (1 : Nat) else 0) ≤ 1 := by cases value <;> decide
  have hlt2 : (if value then (1 : Nat) else 0) <<< (bitIndex % 8) < 256 := by
    calc (if value then (1 : Nat) else 0) <<< (bitIndex % 8)
        = (if value then (1 : Nat) else 0) * 2 ^ (bitIndex % 8) := Nat.shiftLeft_eq _ _
      _ ≤ 1 * 2 ^ 7 := Nat.mul_le_mul hv1 (Nat.pow_le_pow_right (by norm_num) (by omega))
      _ < 256 := by norm_num
  have e2 : (if value then (1 : Nat) else 0) <<< (bitIndex % 8) =
      (((if value then (1 : Nat) else 0) &&& (2 ^ 1 - 1)) <<< (bitIndex % 8)) % 256 := by
    have hle : (if value then (1 : Nat) else 0) &&& (2 ^ 1 - 1) =
        (if value then (1 : Nat) else 0) := by
      cases value <;> decide
    rw [hle, Nat.mod_eq_of_lt hlt2]
  rw [boolSet, hdb]
  rw [e1, e2]
  have hchar := set_byte_bitAt buf bitIndex 1 (if value then 1 else 0)
    db hlt hdb (by omega)
  refine ⟨_, rfl, List.length_set _ _ _, ?_, ?_⟩
  · rw [hchar bitIndex]
    have h4 : bitIndex ≤ bitIndex ∧ bitIndex < bitIndex + 1 := by omega
    rw [if_pos h4, Nat.sub_self]
    cases value <;> decide
  · intro i hi
    rw [hchar i]
    have h4 : ¬(bitIndex ≤ i ∧ i < bitIndex + 1) := by omega
    rw [if_neg h4]

/-- C1: Round-trip of the Bit-Range Codec: for every width `w ∈ [1, 128]`,
every bit offset `o` with `o + w ≤ 8 * buffer.len()`, and every value
`v ∈ [0, 2^w)`, after the width-`w` specifier's `set(buffer, o, v)` the
width-`w` specifier's `get(buffer, o)` returns `v`. -/
theorem claim_C1_roundtrip (w o v : Nat) (buf : List Nat) (h1 : 1 ≤ w)
    (h2 : w ≤ 128) (h3 : o + w ≤ 8 * buf.length) (hbuf : ValidBuf buf)
    (hval : v < 2 ^ w) :
    ∃ buf2, Specifier.set w buf o v = .ok buf2 ∧
      Specifier.get w buf2 o = some v := by
  obtain ⟨buf2, hok, hlen, hv2, hchar⟩ := set_spec w buf o v h1 h3 hbuf
  obtain ⟨out, hout, hbits⟩ := get_spec w buf2 o h1 (by rw [hlen]; exact h3)
  refine ⟨buf2, hok, ?_⟩
  rw [hout]
  congr 1
  refine Nat.eq_of_testBit_eq fun t => ?_
  rw [hbits t]
  by_cases ht : t < w
  · have h4 : o ≤ o + t ∧ o + t < o + w := by omega
    rw [hchar (o + t), if_pos h4]
    simp [ht, Nat.add_sub_cancel_left]
  · have h5 : v.testBit t = false := by
      refine Nat.testBit_eq_false_of_lt ?_
      calc v < 2 ^ w := hval
        _ ≤ 2 ^ t := Nat.pow_le_pow_right (by norm_num) (by omega)
    simp [ht, h5]

/-- C2: Non-interference of writes: an in-bounds width-`w` write at offset
`o` changes at most the bits with indices in `[o, o + w)`; every other bit of
the buffer, including the untouched bits of partially-touched bytes, is
unchanged.  The `bool` specifier's single-bit write likewise changes at most
bit `o`. -/
theorem claim_C2_noninterference (w o v : Nat) (buf : List Nat) (h1 : 1 ≤ w)
    (h2 : w ≤ 128) (h3 : o + w ≤ 8 * buf.length) (hbuf : ValidBuf buf) :
    (∃ buf2, Specifier.set w buf o v = .ok buf2 ∧
      buf2.length = buf.length ∧
      ∀ i, i < o ∨ o + w ≤ i → bitAt buf2 i = bitAt buf i) ∧
    ∀ value : Bool, ∃ buf3, boolSet buf o value = .ok buf3 ∧
      ∀ i, i ≠ o → bitAt buf3 i = bitAt buf i := by
  constructor
  · obtain ⟨buf2, hok, hlen, hv2, hchar⟩ := set_spec w buf o v h1 h3 hbuf
    refine ⟨buf2, hok, hlen, fun i hi => ?_⟩
    rw [hchar i, if_neg (by omega)]
  · intro value
    obtain ⟨buf3, hok, _, _, hframe⟩ := boolSet_spec buf o value (by omega)
    exact ⟨buf3, hok, hframe⟩

/-- C3: Oversized-write truncation: for an in-bounds write of any value `v`
of the underlying unsigned type (including `v ≥ 2^w`), the per-chunk masking
of the write loop leaves the buffer exactly as writing `v % 2^w` would, and
the write never fails. -/
theorem claim_C3_truncation (w o v : Nat) (buf : List Nat) (h1 : 1 ≤ w)
    (h2 : w ≤ 128) (h3 : o + w ≤ 8 * buf.length) (hbuf : ValidBuf buf)
    (hprim : v < 2 ^ primBits w) :
    Specifier.set w buf o v = Specifier.set w buf o (v % 2 ^ w) ∧
    ∃ buf2, Specifier.set w buf o v = .ok buf2 := by
  obtain ⟨buf2, hok2, hlen2, hv2, hchar2⟩ := set_spec w buf o v h1 h3 hbuf
  obtain ⟨buf3, hok3, hlen3, hv3, hchar3⟩ :=
    set_spec w buf o (v % 2 ^ w) h1 h3 hbuf
  have heq : buf2 = buf3 := by
    refine eq_of_bitAt_eq buf2 buf3 (by rw [hlen2, hlen3]) hv2 hv3 fun i => ?_
    rw [hchar2 i, hchar3 i]
    by_cases hin : o ≤ i ∧ i < o + w
    · rw [if_pos hin, if_pos hin, Nat.testBit_mod_two_pow]
      have : i - o < w := by omega
      simp [this]
    · rw [if_neg hin, if_neg hin]
  exact ⟨by rw [hok2, hok3, heq], buf2, hok2⟩

/-- C7: Bounds violations fail fast: when `o + w` exceeds the bit size of the
buffer, the width-`w` read and write both reach a byte index past the buffer
end and fail with the indexing panic instead of truncating or clamping the
access. -/
theorem claim_C7_bounds (w o v : Nat) (buf : List Nat) (h1 : 1 ≤ w)
    (h2 : w ≤ 128) (h3 : 8 * buf.length < o + w) :
    Specifier.get w buf o = none ∧
    ∃ e, Specifier.set w buf o v = .error e :=
  ⟨getLoop_oob w buf w o 0 h1 h3, setLoop_oob w o v buf h1 h3⟩

/-- C9: Implicit invariant of reads: an in-bounds width-`w` read always
returns a value strictly below `2^w`, for every buffer, because each chunk is
masked to its width before being assembled. -/
theorem claim_C9_get_bound (w o : Nat) (buf : List Nat) (h1 : 1 ≤ w)
    (h2 : w ≤ 128) (h3 : o + w ≤ 8 * buf.length) :
    ∃ out, Specifier.get w buf o = some out ∧ out < 2 ^ w := by
  obtain ⟨out, hout, hbits⟩ := get_spec w buf o h1 h3
  refine ⟨out, hout, Nat.lt_pow_two_of_testBit out fun i hi => ?_⟩
  rw [hbits i]
  simp [Nat.not_lt.mpr hi]

/-- C4: Exhaustive symbol decode totality: when the variant count is a power
of two `2^w`, and the discriminants are distinct and each below the variant
count, every one of the `2^w` raw bit patterns matches some variant, so the
`unreachable!` arm of the generated match is never reached. -/
theorem claim_C4_exhaustive_total (w raw : Nat) (discs : List Nat)
    (hn : discs.Nodup) (hlen : discs.length = 2 ^ w)
    (hlt : ∀ d ∈ discs, d < discs.length) (hraw : raw < 2 ^ w) :
    (decodeExhaustive discs raw).isSome :=
  decodeExhaustive_isSome_of_mem discs raw
    (mem_of_nodup_full discs w raw hn hlen (fun d hd => hlen ▸ hlt d hd) hraw)

/-- C5: Open symbol decode: an in-bounds read through an open (`set_bits`)
symbol table returns the `w`-bit value `v` read from the buffer; the decode
yields the symbol bound to `v` exactly when `v` equals some discriminant of
the table, and otherwise the `Unrecognized` wrapper carrying exactly `v`;
the decode of an in-bounds open field never fails. -/
theorem claim_C5_open_decode (w o : Nat) (discs buf : List Nat) (h1 : 1 ≤ w)
    (h2 : w ≤ 128) (h3 : o + w ≤ 8 * buf.length) :
    ∃ v, Specifier.get w buf o = some v ∧
      getSymbolOpen w discs buf o = some (decodeOpen discs v) ∧
      (v ∈ discs → ∃ i, decodeOpen discs v = .ok i ∧ discs.getD i 0 = v) ∧
      (v ∉ discs → decodeOpen discs v = .error v) ∧
      ∀ i, decodeOpen discs v = .ok i → v ∈ discs := by
  obtain ⟨v, hv, _⟩ := get_spec w buf o h1 h3
  refine ⟨v, hv, ?_, decodeOpen_of_mem discs v, decodeOpen_of_not_mem discs v,
    fun i hi => (decodeOpen_ok_mem discs v i hi).1⟩
  rw [getSymbolOpen, hv]
  rfl

/-- C6 (counterexample): in the width `1, 3, 4, 24` scenario, setting the
width-24 field at bit offset 8 to `0xABCDEF` on the all-zero 4-byte buffer
leaves bytes 1, 2, 3 equal to `0xEF, 0xCD, 0xAB` — not `0xAB, 0xCD, 0xEF`
as the claim states: the first byte visited receives the least-significant
byte of the value. -/
theorem claim_C6_counterexample :
    Specifier.set 24 [0, 0, 0, 0] 8 0xABCDEF = .ok [0, 0xEF, 0xCD, 0xAB] ∧
    [0, 0xEF, 0xCD, 0xAB] ≠ [0, 0xAB, 0xCD, 0xEF] := by
  constructor
  · rw [Specifier.set]
    rw [setLoop.eq_def]; norm_num
    rw [setLoop.eq_def]; norm_num
    rw [setLoop.eq_def]; norm_num
    decide
  · decide

/-- C6 (amended): in a bitfield of total width 32 with fields of widths
1, 3, 4, 24 at bit offsets 0, 1, 4, 8, starting from any buffer, setting the
width-24 field to `0xABCDEF` leaves bytes 1, 2, 3 of the buffer equal to
`0xEF, 0xCD, 0xAB` respectively (little-endian bit assembly: the lowest byte
of the range receives the least-significant bits of the value), with byte 0,
which holds only fields 0-2, unchanged. -/
theorem claim_C6_scenario (b0 b1 b2 b3 : Nat) :
    Specifier.set 24 [b0, b1, b2, b3] 8 0xABCDEF = .ok [b0, 0xEF, 0xCD, 0xAB] := by
  rw [Specifier.set]
  rw [setLoop_step [b0, b1, b2, b3] 8 24 0xABCDEF b1 rfl]
  norm_num
  rw [(by decide : ((11259375 : Nat) &&& 255) % 256 = 239)]
  rw [setLoop_step [b0, 239, b2, b3] 16 16 (11259375 >>> 8) b2 rfl]
  norm_num
  rw [(by decide : (((11259375 : Nat) >>> 8) &&& 255) % 256 = 205)]
  rw [setLoop_step [b0, 239, 205, b3] 24 8 (11259375 >>> 8 >>> 8) b3 rfl]
  norm_num
  rw [(by decide : (((11259375 : Nat) >>> 8 >>> 8) &&& 255) % 256 = 171)]

/-- C8: Layout determinism: the accessors generated for field `k` operate at
bit offset `Σ_{j<k} w_j`, so the fields are contiguous with no padding
(`fieldOffset (k+1) = fieldOffset k + w_k`); the setter of field `k` changes
no bit outside `[Σ_{j<k} w_j, Σ_{j≤k} w_j)`, and the getter of field `k`
depends only on the bits in that interval (bit `i` living in byte `i / 8` at
intra-byte position `i % 8` by definition of `bitAt`). -/
theorem claim_C8_layout (widths buf : List Nat) (k v : Nat)
    (hk : k < widths.length) (hall : ∀ x ∈ widths, 1 ≤ x)
    (hb : fieldOffset widths (k + 1) ≤ 8 * buf.length) (hbuf : ValidBuf buf) :
    fieldOffset widths (k + 1) = fieldOffset widths k + widths.getD k 0 ∧
    (∃ buf2, setField widths buf k v = .ok buf2 ∧
      ∀ i, i < fieldOffset widths k ∨ fieldOffset widths (k + 1) ≤ i →
        bitAt buf2 i = bitAt buf i) ∧
    ∀ buf3, buf3.length = buf.length →
      (∀ i, fieldOffset widths k ≤ i → i < fieldOffset widths (k + 1) →
        bitAt buf3 i = bitAt buf i) →
      getField widths buf3 k = getField widths buf k := by
  have hgd : widths.getD k 0 = widths[k] := by
    rw [List.getD_eq_getElem?_getD, List.getElem?_eq_getElem hk, Option.getD_some]
  have hoffsucc : fieldOffset widths (k + 1) =
      fieldOffset widths k + widths.getD k 0 := by
    rw [fieldOffset, fieldOffset, hgd, List.sum_take_succ widths k hk]
  have hw1 : 1 ≤ widths.getD k 0 := by
    rw [hgd]; exact hall _ (List.getElem_mem hk)
  have hbound : fieldOffset widths k + widths.getD k 0 ≤ 8 * buf.length := by
    rw [← hoffsucc]; exact hb
  refine ⟨hoffsucc, ?_, ?_⟩
  · obtain ⟨buf2, hok, hlen, hv2, hchar⟩ :=
      set_spec (widths.getD k 0) buf (fieldOffset widths k) v hw1 hbound hbuf
    refine ⟨buf2, by rw [setField]; exact hok, fun i hi => ?_⟩
    rw [hchar i, if_neg (by omega)]
  · intro buf3 hlen3 hagree
    obtain ⟨out, hout, hbits⟩ :=
      get_spec (widths.getD k 0) buf (fieldOffset widths k) hw1 hbound
    obtain ⟨out3, hout3, hbits3⟩ :=
      get_spec (widths.getD k 0) buf3 (fieldOffset widths k) hw1
        (by rw [hlen3]; exact hbound)
    rw [getField, getField, hout, hout3]
    congr 1
    refine Nat.eq_of_testBit_eq fun t => ?_
    rw [hbits t, hbits3 t]
    by_cases ht : t < widths.getD k 0
    · rw [hagree (fieldOffset widths k + t) (by omega) (by omega)]
    · simp only [decide_eq_false ht, Bool.false_and]

/-- C10: Non-atomicity on bounds violations: with width 16, offset 0 and a
one-byte buffer (`0 < 8 ≤ 8 < 0 + 16`), the write loop mutates the in-range
byte (turning `[0]` into `[255]`) before it reaches the out-of-range byte
index and fails, so a write that fails fast does not leave the buffer
unchanged. -/
theorem claim_C10_partial_mutation :
    0 < 8 * ([0] : List Nat).length ∧
    8 * ([0] : List Nat).length < 0 + 16 ∧
    Specifier.set 16 [0] 0 65535 = .error [255] ∧
    ([255] : List Nat) ≠ [0] := by
  refine ⟨by decide, by decide, ?_, by decide⟩
  rw [Specifier.set]
  rw [setLoop.eq_def]; norm_num
  rw [setLoop.eq_def]; norm_num
  decide

/-- Witness for C1 at width 3, offset 6 (spanning a byte boundary),
value 5. -/
theorem claim_C1_witness :
    (1 ≤ 3 ∧ (3 : Nat) ≤ 128 ∧ 6 + 3 ≤ 8 * ([0, 0] : List Nat).length ∧
      ValidBuf [0, 0] ∧ 5 < 2 ^ 3) ∧
    ∃ buf2, Specifier.set 3 [0, 0] 6 5 = .ok buf2 ∧
      Specifier.get 3 buf2 6 = some 5 :=
  ⟨⟨by norm_num, by norm_num, by decide, by decide, by norm_num⟩,
   claim_C1_roundtrip 3 6 5 [0, 0] (by norm_num) (by norm_num) (by decide)
     (by decide) (by norm_num)⟩

/-- Witness for C2 at width 4, offset 2, on a patterned buffer. -/
theorem claim_C2_witness :
    (1 ≤ 4 ∧ (4 : Nat) ≤ 128 ∧ 2 + 4 ≤ 8 * ([255, 0] : List Nat).length ∧
      ValidBuf [255, 0]) ∧
    ((∃ buf2, Specifier.set 4 [255, 0] 2 9 = .ok buf2 ∧
      buf2.length = ([255, 0] : List Nat).length ∧
      ∀ i, i < 2 ∨ 2 + 4 ≤ i → bitAt buf2 i = bitAt [255, 0] i) ∧
    ∀ value : Bool, ∃ buf3, boolSet [255, 0] 2 value = .ok buf3 ∧
      ∀ i, i ≠ 2 → bitAt buf3 i = bitAt [255, 0] i) :=
  ⟨⟨by norm_num, by norm_num, by decide, by decide⟩,
   claim_C2_noninterference 4 2 9 [255, 0] (by norm_num) (by norm_num)
     (by decide) (by decide)⟩

/-- Witness for C3 at width 3 with the oversized value 200 (which exceeds
`2^3` but fits the underlying `u8`). -/
theorem claim_C3_witness :
    (1 ≤ 3 ∧ (3 : Nat) ≤ 128 ∧ 1 + 3 ≤ 8 * ([0] : List Nat).length ∧
      ValidBuf [0] ∧ 200 < 2 ^ primBits 3) ∧
    (Specifier.set 3 [0] 1 200 = Specifier.set 3 [0] 1 (200 % 2 ^ 3) ∧
      ∃ buf2, Specifier.set 3 [0] 1 200 = .ok buf2) :=
  ⟨⟨by norm_num, by norm_num, by decide, by decide, by decide⟩,
   claim_C3_truncation 3 1 200 [0] (by norm_num) (by norm_num) (by decide)
     (by decide) (by decide)⟩

/-- Witness for C4 on an 8-variant, 3-bit exhaustive table with permuted
discriminants, at raw pattern 6. -/
theorem claim_C4_witness :
    (([3, 1, 0, 2, 7, 5, 4, 6] : List Nat).Nodup ∧
      ([3, 1, 0, 2, 7, 5, 4, 6] : List Nat).length = 2 ^ 3 ∧
      (∀ d ∈ ([3, 1, 0, 2, 7, 5, 4, 6] : List Nat),
        d < ([3, 1, 0, 2, 7, 5, 4, 6] : List Nat).length) ∧
      6 < 2 ^ 3) ∧
    (decodeExhaustive [3, 1, 0, 2, 7, 5, 4, 6] 6).isSome :=
  ⟨⟨by decide, by decide, by decide, by norm_num⟩,
   claim_C4_exhaustive_total 3 6 [3, 1, 0, 2, 7, 5, 4, 6] (by decide)
     (by decide) (by decide) (by norm_num)⟩

/-- Witness for C5 on the width-4 open table of test
24-set-bits-attribute.rs, reading offset 0 of a one-byte buffer. -/
theorem claim_C5_witness :
    (1 ≤ 4 ∧ (4 : Nat) ≤ 128 ∧ 0 + 4 ≤ 8 * ([0] : List Nat).length) ∧
    ∃ v, Specifier.get 4 [0] 0 = some v ∧
      getSymbolOpen 4 [2, 3, 5, 7, 11, 13] [0] 0 =
        some (decodeOpen [2, 3, 5, 7, 11, 13] v) ∧
      (v ∈ ([2, 3, 5, 7, 11, 13] : List Nat) →
        ∃ i, decodeOpen [2, 3, 5, 7, 11, 13] v = .ok i ∧
          ([2, 3, 5, 7, 11, 13] : List Nat).getD i 0 = v) ∧
      (v ∉ ([2, 3, 5, 7, 11, 13] : List Nat) →
        decodeOpen [2, 3, 5, 7, 11, 13] v = .error v) ∧
      ∀ i, decodeOpen [2, 3, 5, 7, 11, 13] v = .ok i →
        v ∈ ([2, 3, 5, 7, 11, 13] : List Nat) :=
  ⟨⟨by norm_num, by norm_num, by decide⟩,
   claim_C5_open_decode 4 0 [2, 3, 5, 7, 11, 13] [0] (by norm_num)
     (by norm_num) (by decide)⟩

/-- Witness for C7 at width 16 on a one-byte buffer. -/
theorem claim_C7_witness :
    (1 ≤ 16 ∧ (16 : Nat) ≤ 128 ∧ 8 * ([0] : List Nat).length < 0 + 16) ∧
    (Specifier.get 16 [0] 0 = none ∧
      ∃ e, Specifier.set 16 [0] 0 5 = .error e) :=
  ⟨⟨by norm_num, by norm_num, by decide⟩,
   claim_C7_bounds 16 0 5 [0] (by norm_num) (by norm_num) (by decide)⟩

/-- Witness for C8 on the scenario layout of widths 1, 3, 4, 24, field 3. -/
theorem claim_C8_witness :
    ((3 : Nat) < ([1, 3, 4, 24] : List Nat).length ∧
      (∀ x ∈ ([1, 3, 4, 24] : List Nat), 1 ≤ x) ∧
      fieldOffset [1, 3, 4, 24] (3 + 1) ≤ 8 * ([0, 0, 0, 0] : List Nat).length ∧
      ValidBuf [0, 0, 0, 0]) ∧
    (fieldOffset [1, 3, 4, 24] (3 + 1) =
      fieldOffset [1, 3, 4, 24] 3 + ([1, 3, 4, 24] : List Nat).getD 3 0 ∧
    (∃ buf2, setField [1, 3, 4, 24] [0, 0, 0, 0] 3 11259375 = .ok buf2 ∧
      ∀ i, i < fieldOffset [1, 3, 4, 24] 3 ∨ fieldOffset [1, 3, 4, 24] (3 + 1) ≤ i →
        bitAt buf2 i = bitAt [0, 0, 0, 0] i) ∧
    ∀ buf3, buf3.length = ([0, 0, 0, 0] : List Nat).length →
      (∀ i, fieldOffset [1, 3, 4, 24] 3 ≤ i → i < fieldOffset [1, 3, 4, 24] (3 + 1) →
        bitAt buf3 i = bitAt [0, 0, 0, 0] i) →
      getField [1, 3, 4, 24] buf3 3 = getField [1, 3, 4, 24] [0, 0, 0, 0] 3) :=
  ⟨⟨by decide, by decide, by decide, by decide⟩,
   claim_C8_layout [1, 3, 4, 24] [0, 0, 0, 0] 3 11259375 (by decide)
     (by decide) (by decide) (by decide)⟩

/-- Witness for C9 at width 7, offset 3, on an all-ones buffer. -/
theorem claim_C9_witness :
    (1 ≤ 7 ∧ (7 : Nat) ≤ 128 ∧ 3 + 7 ≤ 8 * ([255, 255] : List Nat).length) ∧
    ∃ out, Specifier.get 7 [255, 255] 3 = some out ∧ out < 2 ^ 7 :=
  ⟨⟨by norm_num, by norm_num, by decide⟩,
   claim_C9_get_bound 7 3 [255, 255] (by norm_num) (by norm_num) (by decide)⟩
